import Mathlib

/-!
Verification of the deb-grouping core of the `github-apt-repos` repository.

The definitions below are a shallow embedding of the Python sources:
`githubaptrepos/utils.py` (`quote_dotted`), `githubaptrepos/repo.py`
(`DEB_BASENAME_RE`, `get_deb_dist_arch`, `group_debs` of the latest
revision), the older monolithic revision `githubaptrepos/__init__.py`
(its `get_deb_dist_arch` variant and the public-key filename derivation
inside `main`).  Strings are handled as `List Char` internally, the
filesystem as an explicit record of existing directories and of
(path, link-source) file entries, and raised exceptions as `Except`
or `Option` results.

The template `DEB_BASENAME_RE` is
`(package)([-_\.](?P<dist>.+)|)_(version)_(arch)` with the extracted
control-field values spliced in as regex source text.  The embedding
models the instantiated pattern for fields free of regex
metacharacters (see `metaFree`), where `.` is a wildcard for any
character except a newline and all other characters are literal; the
spec itself describes the fields as literal text and flags the missing
escaping as a latent bug, so theorems about the resolver carry
`metaFree` hypotheses marking that envelope.
-/


/-- Membership test of the `_ALWAYS_SAFE` character set the source imports:
ASCII letters, digits, and underscore, dot, hyphen, tilde.  This embeds the
Python 2 fallback branch `frozenset(always_safe)` (a set of characters), which
is also the safe-character reading the spec describes; Python 3 builds in
which `urllib.parse._ALWAYS_SAFE` holds byte values instead make the source's
`char in _ALWAYS_SAFE` test vacuously false, collapsing every character to a
dot — a degeneration under which the properties proved below still hold. -/
def isAlwaysSafe (c : Char) : Bool :=
  c.isAlpha || c.isDigit || c == '_' || c == '.' || c == '-' || c == '~'

/-- One character of the quoting step shared by `utils.quote_dotted` and the
key-filename code in `main`: a safe character passes through, every other
character becomes a dot. -/
def quoteChar (c : Char) : Char := if isAlwaysSafe c then c else '.'

/-- The comprehension `''.join([(char if char in _ALWAYS_SAFE else '.') for char in orig])`. -/
def quoteChars (l : List Char) : List Char := l.map quoteChar

/-- Python's `s.replace('..', '.')`: a single left-to-right pass replacing
non-overlapping occurrences of two consecutive dots by one dot. -/
def replacePairs : List Char → List Char
  | '.' :: '.' :: t => '.' :: replacePairs t
  | c :: t => c :: replacePairs t
  | [] => []

/-- Whether the character list contains two consecutive dots. -/
def hasDD : List Char → Bool
  | '.' :: '.' :: _ => true
  | _ :: t => hasDD t
  | [] => false

/-- Python's `s.strip('.')`: remove leading and trailing dots. -/
def stripDots (l : List Char) : List Char :=
  ((l.dropWhile (· == '.')).reverse.dropWhile (· == '.')).reverse

/-- The loop `while result != dotted: dotted = result; result = dotted.replace('..', '.')`
shared by `utils.quote_dotted` and the key-filename code in `main`.  The loop
strictly shrinks `result` whenever it iterates past the first comparison, so
the fuel passed at the call sites (`result.length + 2`) always reaches the
exit condition; `pyFixLoop_fix` below proves the returned value is a true
fixpoint of the replacement. -/
def pyFixLoop : Nat → List Char → List Char → List Char
  | 0, _, result => result
  | fuel + 1, dotted, result =>
    if result = dotted then result
    else pyFixLoop fuel result (replacePairs result)

/-- Embedding of `utils.quote_dotted` (`githubaptrepos/utils.py`): quote to
dots, strip edge dots once, then collapse double dots to a fixpoint. -/
def quote_dotted (orig : String) : String :=
  let dotted := quoteChars orig.data
  let result := replacePairs (stripDots dotted)
  ⟨pyFixLoop (result.length + 2) dotted result⟩

/-- Embedding of the public-key basename derivation inlined in `main`
(`githubaptrepos/__init__.py` lines 431-439): quote the GPG user id to dots,
append `.pub.key`, then collapse double dots to a fixpoint.  Unlike
`utils.quote_dotted` there is no `strip('.')`, and the suffix is appended
before the collapsing loop runs. -/
def pubKeyBasename (gpgUserId : String) : String :=
  let dotted := quoteChars gpgUserId.data ++ (".pub.key").data
  let result := replacePairs dotted
  ⟨pyFixLoop (result.length + 2) dotted result⟩

/-- Collapse consecutive dots by iterating `replacePairs` to a fixpoint
(the loop shape of the source, applied to a bare list). -/
def collapseDots (l : List Char) : List Char :=
  pyFixLoop ((replacePairs l).length + 2) l (replacePairs l)

/-- Modelled from the spec: section 6 of the spec derives the public key
filename by safe-character passthrough with dot replacement, "then collapsing
consecutive dots", and suffixing `.pub.key` last.  This definition follows
the spec's wording so it can be compared with `pubKeyBasename`, which embeds
the source ordering (suffix first, collapse afterwards). -/
def pubKeyBasenameSpec (s : String) : String :=
  ⟨collapseDots (quoteChars s.data) ++ (".pub.key").data⟩

/-- Matching of a regex fragment obtained by splicing a control-field string
into `DEB_BASENAME_RE` (`githubaptrepos/repo.py` line 20), restricted to
fields without regex metacharacters (see `metaFree`): each `.` matches any
character except a newline, every other character matches itself.  Returns
the unconsumed remainder of the subject on success (`re.match` anchors at
the start only, so a remainder is allowed). -/
def matchLit : List Char → List Char → Option (List Char)
  | [], s => some s
  | _ :: _, [] => none
  | p :: ps, c :: cs =>
    if p = '.' then (if c = '\n' then none else matchLit ps cs)
    else if p = c then matchLit ps cs else none

/-- The character class `[-_\.]` of `DEB_BASENAME_RE`. -/
def sepClass (c : Char) : Bool := c == '-' || c == '_' || c == '.'

/-- Backtracking search for the greedy `(?P<dist>.+)` group: try the longest
candidate first (Python's greedy `+`), where a candidate of length `i + 1`
succeeds when it contains no newline (`.` does not match newlines) and the
rest of the pattern `_{version}_{arch}` matches right after it. -/
def findDistGo (tail rest : List Char) : Nat → Option (List Char)
  | 0 => none
  | i + 1 =>
    let d := rest.take (i + 1)
    if d.all (· != '\n') && (matchLit tail (rest.drop (i + 1))).isSome then some d
    else findDistGo tail rest i

/-- Run the greedy dist search over all candidate lengths, longest first. -/
def findDist (tail rest : List Char) : Option (List Char) :=
  findDistGo tail rest rest.length

/-- The instantiated pattern suffix `_{version}_{arch}` of `DEB_BASENAME_RE`. -/
def debTail (v a : List Char) : List Char := '_' :: (v ++ '_' :: a)

/-- The left alternative `[-_\.](?P<dist>.+)` of the group in
`DEB_BASENAME_RE`, applied to the remainder after the package name:
a separator character followed by a greedy non-empty dist capture,
constrained so the rest of the pattern matches after it. -/
def debViaDist (tail : List Char) : List Char → Option (List Char)
  | [] => none
  | c :: rest => if sepClass c then findDist tail rest else none

/-- The group `([-_\.](?P<dist>.+)|)` followed by `_{version}_{arch}`:
Python tries the left alternative first; if it fails everywhere, the empty
alternative is taken and the tail pattern must match directly, with the
dist group left unset (`group(2)` is `None`). -/
def debMatchGroup (tail r0 : List Char) : Option (Option (List Char)) :=
  match debViaDist tail r0 with
  | some d => some (some d)
  | none => if (matchLit tail r0).isSome then some none else none

/-- Result of `re.match(DEB_BASENAME_RE.format(...), basename)` followed by
`.group(2)`: `none` models a failed match, `some none` a match with no dist
group, `some (some d)` a match capturing `d` as the dist.  Faithful to the
source for control fields satisfying `metaFree` (the source splices the raw
field text into the pattern, so regex metacharacters in a field would change
its meaning; the spec flags that as a latent bug and treats fields as
literal text). -/
def debMatch (p v a bn : List Char) : Option (Option (List Char)) :=
  match matchLit p bn with
  | none => none
  | some r0 => debMatchGroup (debTail v a) r0

/-- Helper for `os.path.splitext` on a reversed base name: drop characters up
to and including the last dot of the original name. -/
def stripExtAux : List Char → Option (List Char)
  | [] => none
  | c :: rest => if c = '.' then some rest else stripExtAux rest

/-- `os.path.splitext(...)[0]` on a base name: cut at the last dot unless
every character before that dot is itself a dot (Python treats such names,
like `.deb`, as having no extension). -/
def stripExt (l : List Char) : List Char :=
  match stripExtAux l.reverse with
  | none => l
  | some revRoot => if revRoot.reverse.all (· == '.') then l else revRoot.reverse

/-- A `*.deb` file as the resolver sees it: the base name of the file on disk
plus the three control fields `apt.debfile.DebPackage` extracts
(`Package`, `Version`, `Architecture`). -/
structure DebPackage where
  name : String
  package : String
  version : String
  arch : String
deriving DecidableEq

/-- Embedding of `get_deb_dist_arch` (`githubaptrepos/repo.py` lines 33-54):
strip the extension, match the instantiated `DEB_BASENAME_RE`, and return
`(dist, arch)`.  A failed match yields `dist = None` (the explicit
`if deb_basename_match is None` guard of the latest revision), as does a
match whose dist group is unset. -/
def get_deb_dist_arch (deb : DebPackage) : Option String × String :=
  match debMatch deb.package.data deb.version.data deb.arch.data (stripExt deb.name.data) with
  | some (some d) => (some ⟨d⟩, deb.arch)
  | _ => (none, deb.arch)

/-- Embedding of the older `get_deb_dist_arch` revision
(`githubaptrepos/__init__.py` lines 142-160), which calls `.group(2)` without
a `None` guard: a failed match raises (`AttributeError`), modelled as `none`;
a successful match returns the pair. -/
def init_get_deb_dist_arch (deb : DebPackage) : Option (Option String × String) :=
  match debMatch deb.package.data deb.version.data deb.arch.data (stripExt deb.name.data) with
  | none => none
  | some od => some (od.map (fun d => (⟨d⟩ : String)), deb.arch)

/-- Regex metacharacters: a control field containing one of these would change
the meaning of the spliced pattern, which the spec calls a latent bug of the
unescaped `DEB_BASENAME_RE.format(...)` call. -/
def META : List Char := ['\\', '+', '*', '?', '(', ')', '[', ']', '{', '}', '|', '^', '$']

/-- A control field within the faithfulness envelope of this embedding: it
contains no regex metacharacter, so splicing it into the pattern treats `.`
as a wildcard and every other character literally, exactly as `matchLit`
does. -/
def metaFree (s : String) : Prop := ∀ c ∈ s.data, c ∉ META

instance (s : String) : Decidable (metaFree s) :=
  inferInstanceAs (Decidable (∀ c ∈ s.data, c ∉ META))

/-- `os.path.join` for the POSIX cases this program exercises: an absolute
second component wins, an empty first component disappears, and a single
separator is inserted unless the first component already ends with one. -/
def joinP (x y : String) : String :=
  if y.data.head? = some '/' then y
  else if x.data = [] then y
  else if x.data.getLast? = some '/' then ⟨x.data ++ y.data⟩
  else ⟨x.data ++ '/' :: y.data⟩

/-- The characters a `joinP x y` result places before the separator and `y`:
`x` itself, minus a trailing slash if it has one. -/
def preData (x : String) : List Char :=
  if x.data.getLast? = some '/' then x.data.dropLast else x.data

/-- The destination directory for a resolved `(distribution, architecture)`
pair: `apt_dir/arch` when the distribution is `None`, `apt_dir/dist/arch`
otherwise (`githubaptrepos/repo.py` lines 70-73). -/
def pairDir (aptDir : String) : Option String → String → String
  | none, ar => joinP aptDir ar
  | some dist, ar => joinP (joinP aptDir dist) ar

/-- The filesystem state `group_debs` mutates: the set of directories that
exist (as a list of paths) and the files that exist, each file carrying the
source path it was hard-linked from. -/
structure FS where
  dirs : List String
  files : List (String × String)
deriving DecidableEq

/-- `os.path.exists`: the path is a directory or a file. -/
def pathExists (fs : FS) (p : String) : Prop :=
  p ∈ fs.dirs ∨ p ∈ fs.files.map Prod.fst

instance (fs : FS) (p : String) : Decidable (pathExists fs p) :=
  inferInstanceAs (Decidable (_ ∨ _))

/-- `os.makedirs` with the `errno 17` (already exists) exception swallowed
(`repo.py` lines 74-79): create the directory if absent, succeed silently
otherwise.  Creation of intermediate directories is represented by the leaf
path alone. -/
def mkdirs (fs : FS) (d : String) : FS :=
  if d ∈ fs.dirs then fs else { fs with dirs := fs.dirs ++ [d] }

/-- `if not os.path.exists(deb_link): os.link(deb, deb_link)`
(`repo.py` lines 82-85): create the hard link only when no entry exists at
the destination path. -/
def linkIfAbsent (fs : FS) (src dst : String) : FS :=
  if pathExists fs dst then fs else { fs with files := fs.files ++ [(dst, src)] }

/-- The `dist_arch_dir` computed for one `*.deb` file inside the `group_debs`
loop (`repo.py` lines 69-73). -/
def debDestDir (aptDir : String) (deb : DebPackage) : String :=
  match (get_deb_dist_arch deb).1 with
  | none => joinP aptDir deb.arch
  | some dist => joinP (joinP aptDir dist) deb.arch

/-- `dist_arch_dirs.add(...)`: the result set of `group_debs`, modelled as a
duplicate-free list in first-insertion order. -/
def addDir (l : List String) (d : String) : List String :=
  if d ∈ l then l else l ++ [d]

/-- One iteration of the `for deb in glob.glob(...)` loop of `group_debs`:
resolve the group directory, ensure it exists, record it in the result set,
and ensure the hard link exists under the same base name. -/
def groupStep (debDir aptDir : String) (st : List String × FS) (deb : DebPackage) :
    List String × FS :=
  let dad := debDestDir aptDir deb
  let fs1 := mkdirs st.2 dad
  let dirs1 := addDir st.1 dad
  let debLink := joinP dad deb.name
  let fs2 := linkIfAbsent fs1 (joinP debDir deb.name) debLink
  (dirs1, fs2)

/-- The error `group_debs` raises: `ValueError('No *.deb package files found
in ...')` (`repo.py` lines 86-88), which the spec names
`NoPackagesFoundError`. -/
inductive GroupError where
  | noPackagesFound : String → GroupError
deriving DecidableEq

instance {e a : Type} [DecidableEq e] [DecidableEq a] : DecidableEq (Except e a) := fun x y =>
  match x, y with
  | .error e1, .error e2 =>
      if h : e1 = e2 then isTrue (by rw [h])
      else isFalse (fun hc => h (Except.error.inj hc))
  | .ok v1, .ok v2 =>
      if h : v1 = v2 then isTrue (by rw [h])
      else isFalse (fun hc => h (Except.ok.inj hc))
  | .error _, .ok _ => isFalse (fun hc => Except.noConfusion hc)
  | .ok _, .error _ => isFalse (fun hc => Except.noConfusion hc)

/-- Embedding of `group_debs` (`githubaptrepos/repo.py` lines 57-89): fold the
per-file step over the globbed `*.deb` files (given here as the input list),
then fail if no group directory was produced, else return the set of group
directories and the mutated filesystem. -/
def group_debs (debs : List DebPackage) (debDir aptDir : String) (fs : FS) :
    Except GroupError (List String × FS) :=
  if (debs.foldl (groupStep debDir aptDir) ([], fs)).1.isEmpty
  then .error (.noPackagesFound debDir)
  else .ok (debs.foldl (groupStep debDir aptDir) ([], fs))

/-- The filesystem grew only by appending entries. -/
def FSle (fs fs2 : FS) : Prop :=
  (∃ nd, fs2.dirs = fs.dirs ++ nd) ∧ (∃ nf, fs2.files = fs.files ++ nf)

/-- Frame invariant relating a filesystem to a starting state: everything that
existed is still present, in place, and every new entry sits at a path that
did not exist at the start. -/
def FrameInv (fs0 fs : FS) : Prop :=
  ∃ nd nf, fs.dirs = fs0.dirs ++ nd ∧ fs.files = fs0.files ++ nf ∧
    (∀ d ∈ nd, d ∉ fs0.dirs) ∧ (∀ e ∈ nf, ¬ pathExists fs0 e.1)

theorem rp_length_le (l : List Char) : (replacePairs l).length ≤ l.length := by
  induction l using replacePairs.induct with
  | case1 t ih => rw [replacePairs.eq_1]; simp only [List.length_cons]; omega
  | case2 c t h ih => rw [replacePairs.eq_2 c t h]; simp only [List.length_cons]; omega
  | case3 => simp [replacePairs]

theorem rp_eq_of_length (l : List Char) (h : (replacePairs l).length = l.length) :
    replacePairs l = l := by
  induction l using replacePairs.induct with
  | case1 t ih =>
      exfalso
      have := rp_length_le t
      rw [replacePairs.eq_1] at h
      simp only [List.length_cons] at h
      omega
  | case2 c t hs ih =>
      rw [replacePairs.eq_2 c t hs] at h ⊢
      simp only [List.length_cons] at h
      rw [ih (by omega)]
  | case3 => rfl

theorem rp_lt_of_ne (l : List Char) (h : replacePairs l ≠ l) :
    (replacePairs l).length < l.length := by
  have h1 := rp_length_le l
  rcases Nat.lt_or_ge (replacePairs l).length l.length with h2 | h2
  · exact h2
  · exact absurd (rp_eq_of_length l (Nat.le_antisymm h1 h2)) h

theorem rp_head? (l : List Char) : (replacePairs l).head? = l.head? := by
  induction l using replacePairs.induct with
  | case1 t ih => rw [replacePairs.eq_1]; rfl
  | case2 c t hs ih => rw [replacePairs.eq_2 c t hs]; rfl
  | case3 => rfl

theorem rp_ne_nil (l : List Char) (h : l ≠ []) : replacePairs l ≠ [] := by
  intro hc
  have h2 := rp_head? l
  rw [hc] at h2
  cases l with
  | nil => exact h rfl
  | cons a t => simp at h2

theorem getLast?_cons_ne (x : Char) (l : List Char) (h : l ≠ []) :
    (x :: l).getLast? = l.getLast? := by
  cases l with
  | nil => exact absurd rfl h
  | cons a u => rfl

theorem rp_getLast? (l : List Char) : (replacePairs l).getLast? = l.getLast? := by
  induction l using replacePairs.induct with
  | case1 t ih =>
      rw [replacePairs.eq_1]
      cases t with
      | nil => rfl
      | cons a u =>
          have hne : replacePairs (a :: u) ≠ [] := rp_ne_nil _ (by simp)
          have h1 : ('.' :: '.' :: a :: u).getLast? = (a :: u).getLast? := by
            rw [getLast?_cons_ne _ _ (by simp)]
            exact getLast?_cons_ne _ _ (by simp)
          rw [getLast?_cons_ne _ _ hne, ih, h1]
  | case2 c t hs ih =>
      rw [replacePairs.eq_2 c t hs]
      cases t with
      | nil => rfl
      | cons a u =>
          have hne : replacePairs (a :: u) ≠ [] := rp_ne_nil _ (by simp)
          have h1 : (c :: a :: u).getLast? = (a :: u).getLast? := getLast?_cons_ne _ _ (by simp)
          rw [getLast?_cons_ne _ _ hne, ih, h1]
  | case3 => rfl

theorem rp_subset (l : List Char) : ∀ c ∈ replacePairs l, c ∈ l := by
  induction l using replacePairs.induct with
  | case1 t ih =>
      intro c hc
      rw [replacePairs.eq_1] at hc
      rcases List.mem_cons.mp hc with h | h
      · simp [h]
      · have := ih c h
        simp only [List.mem_cons] at this ⊢
        tauto
  | case2 c t hs ih =>
      intro x hx
      rw [replacePairs.eq_2 c t hs] at hx
      rcases List.mem_cons.mp hx with h | h
      · simp [h]
      · have := ih x h
        simp only [List.mem_cons] at this ⊢
        tauto
  | case3 => simp [replacePairs]

theorem hasDD_length_lt (l : List Char) (h : hasDD l = true) :
    (replacePairs l).length < l.length := by
  induction l using replacePairs.induct with
  | case1 t ih =>
      have := rp_length_le t
      rw [replacePairs.eq_1]
      simp only [List.length_cons]
      omega
  | case2 c t hs ih =>
      have hh : hasDD t = true := by
        rw [hasDD.eq_2 c t hs] at h
        exact h
      rw [replacePairs.eq_2 c t hs]
      have := ih hh
      simp only [List.length_cons]
      omega
  | case3 => simp [hasDD] at h

theorem hasDD_false_of_fix (l : List Char) (h : replacePairs l = l) : hasDD l = false := by
  by_contra hc
  have h1 : hasDD l = true := by simpa using hc
  have h2 := hasDD_length_lt l h1
  rw [h] at h2
  omega

theorem rp_append (l ys : List Char) (hy : ys.head? ≠ some '.') :
    replacePairs (l ++ ys) = replacePairs l ++ replacePairs ys := by
  induction l using replacePairs.induct with
  | case1 t ih =>
      rw [List.cons_append, List.cons_append, replacePairs.eq_1, replacePairs.eq_1, ih,
        List.cons_append]
  | case2 c t hs ih =>
      have hs2 : ∀ (u : List Char), c = '.' → t ++ ys = '.' :: u → False := by
        intro u hc ht
        cases t with
        | nil =>
            simp only [List.nil_append] at ht
            rw [ht] at hy
            simp at hy
        | cons a v =>
            simp only [List.cons_append, List.cons.injEq] at ht
            exact hs v hc (by rw [ht.1])
      rw [List.cons_append, replacePairs.eq_2 c (t ++ ys) hs2, replacePairs.eq_2 c t hs, ih,
        List.cons_append]
  | case3 => simp [replacePairs.eq_3]

theorem pyFixLoop_of_eq (fuel : Nat) (d r : List Char) (h : r = d) :
    pyFixLoop fuel d r = r := by
  cases fuel with
  | zero => rfl
  | succ n => simp [pyFixLoop, h]

theorem pyFixLoop_inv (P : List Char → Prop) (hP : ∀ l, P l → P (replacePairs l)) :
    ∀ (fuel : Nat) (d r : List Char), P r → P (pyFixLoop fuel d r)
  | 0, _, r, h => h
  | fuel + 1, d, r, h => by
      rw [pyFixLoop]
      split
      · exact h
      · exact pyFixLoop_inv P hP fuel r (replacePairs r) (hP r h)

theorem pyFixLoop_fix :
    ∀ (fuel : Nat) (d r : List Char), r.length + 1 ≤ fuel → (r = d → replacePairs r = r) →
      replacePairs (pyFixLoop fuel d r) = pyFixLoop fuel d r
  | 0, _, r, hf, _ => by omega
  | fuel + 1, d, r, hf, hr => by
      rw [pyFixLoop]
      split
      · next heq => exact hr heq
      · next hne =>
          by_cases hfix : replacePairs r = r
          · rw [pyFixLoop_of_eq fuel r (replacePairs r) hfix, hfix]
            exact hfix
          · have hlt := rp_lt_of_ne r hfix
            exact pyFixLoop_fix fuel r (replacePairs r) (by omega) (fun h => absurd h hfix)

theorem pyFixLoop_append (ys : List Char) (hy : ys.head? ≠ some '.')
    (hys : replacePairs ys = ys) :
    ∀ (fuel : Nat) (d r : List Char),
      pyFixLoop fuel (d ++ ys) (r ++ ys) = pyFixLoop fuel d r ++ ys
  | 0, _, _ => rfl
  | fuel + 1, d, r => by
      rw [pyFixLoop, pyFixLoop]
      by_cases h : r = d
      · simp [h]
      · have hne : ¬(r ++ ys = d ++ ys) := fun hc => h (List.append_cancel_right hc)
        rw [if_neg hne, if_neg h, rp_append r ys hy, hys]
        exact pyFixLoop_append ys hy hys fuel r (replacePairs r)

theorem dropWhile_length_le (p : Char → Bool) (l : List Char) :
    (l.dropWhile p).length ≤ l.length := by
  have h2 := List.takeWhile_append_dropWhile p l
  have h3 : (l.takeWhile p).length + (l.dropWhile p).length = l.length := by
    rw [← List.length_append, h2]
  omega

theorem dropWhile_eq_of_length (p : Char → Bool) (l : List Char)
    (h : (l.dropWhile p).length = l.length) : l.dropWhile p = l := by
  have h2 := List.takeWhile_append_dropWhile p l
  have h3 : (l.takeWhile p).length + (l.dropWhile p).length = l.length := by
    rw [← List.length_append, h2]
  have h4 : l.takeWhile p = [] := List.length_eq_zero.mp (by omega)
  conv_rhs => rw [← h2, h4]
  simp

theorem dropWhile_head_not (p : Char → Bool) (l : List Char) (a : Char)
    (h : (l.dropWhile p).head? = some a) : p a = false := by
  induction l with
  | nil => simp [List.dropWhile] at h
  | cons x t ih =>
      rw [List.dropWhile_cons] at h
      split at h
      · exact ih h
      · next hx =>
          simp only [List.head?_cons, Option.some.injEq] at h
          rw [← h]
          simpa using hx

theorem dropWhile_self_of_head (p : Char → Bool) (l : List Char)
    (h : ∀ a, l.head? = some a → p a = false) : l.dropWhile p = l := by
  cases l with
  | nil => rfl
  | cons x t =>
      rw [List.dropWhile_cons, if_neg]
      simp [h x rfl]

theorem dropWhile_subset (p : Char → Bool) (l : List Char) :
    ∀ c ∈ l.dropWhile p, c ∈ l := by
  intro c hc
  have h := List.takeWhile_append_dropWhile p l
  rw [← h]
  exact List.mem_append_right _ hc

theorem stripDots_length_le (l : List Char) : (stripDots l).length ≤ l.length := by
  unfold stripDots
  calc ((l.dropWhile (· == '.')).reverse.dropWhile (· == '.')).reverse.length
      = ((l.dropWhile (· == '.')).reverse.dropWhile (· == '.')).length := by simp
    _ ≤ (l.dropWhile (· == '.')).reverse.length := dropWhile_length_le _ _
    _ = (l.dropWhile (· == '.')).length := by simp
    _ ≤ l.length := dropWhile_length_le _ _

theorem stripDots_eq_of_length (l : List Char) (h : (stripDots l).length = l.length) :
    stripDots l = l := by
  unfold stripDots at h ⊢
  have hA := dropWhile_length_le (· == '.') l
  have hB := dropWhile_length_le (· == '.') ((l.dropWhile (· == '.')).reverse)
  simp only [List.length_reverse] at h hB
  have h1 : (l.dropWhile (· == '.')).length = l.length := by omega
  have h2 := dropWhile_eq_of_length _ _ h1
  rw [h2] at h hB ⊢
  have h3 : (l.reverse.dropWhile (· == '.')).length = l.reverse.length := by simp; omega
  rw [dropWhile_eq_of_length _ _ h3]
  simp

theorem stripDots_getLast (l : List Char) : (stripDots l).getLast? ≠ some '.' := by
  unfold stripDots
  rw [List.getLast?_reverse]
  intro h
  have := dropWhile_head_not _ _ _ h
  simp at this

theorem stripDots_head (l : List Char) : (stripDots l).head? ≠ some '.' := by
  unfold stripDots
  intro h
  set A := l.dropWhile (· == '.') with hA
  set B := A.reverse.dropWhile (· == '.') with hB
  rw [List.head?_reverse] at h
  have hBne : B ≠ [] := by
    intro hc
    rw [hc] at h
    simp at h
  have hsplit := List.takeWhile_append_dropWhile (· == '.') A.reverse
  rw [← hB] at hsplit
  have hgl : A.reverse.getLast? = B.getLast? := by
    rw [← hsplit]
    exact List.getLast?_append_of_ne_nil _ hBne
  rw [List.getLast?_reverse] at hgl
  rw [← hgl] at h
  have := dropWhile_head_not (· == '.') l '.' h
  simp at this

theorem stripDots_subset (l : List Char) : ∀ c ∈ stripDots l, c ∈ l := by
  intro c hc
  unfold stripDots at hc
  rw [List.mem_reverse] at hc
  have h1 := dropWhile_subset _ _ c hc
  rw [List.mem_reverse] at h1
  exact dropWhile_subset _ _ c h1

theorem stripDots_self (l : List Char) (h1 : l.head? ≠ some '.')
    (h2 : l.getLast? ≠ some '.') : stripDots l = l := by
  have hdot : ∀ (m : List Char), m.head? ≠ some '.' → List.dropWhile (· == '.') m = m := by
    intro m hm
    apply dropWhile_self_of_head
    intro a ha
    cases hb : (a == '.')
    · rfl
    · exfalso
      have ha2 : a = '.' := by simpa using hb
      rw [ha2] at ha
      exact hm ha
  unfold stripDots
  rw [hdot l h1, hdot l.reverse (by rw [List.head?_reverse]; exact h2), List.reverse_reverse]

theorem quoteChars_safe (l : List Char) : ∀ c ∈ quoteChars l, isAlwaysSafe c = true := by
  intro c hc
  rcases List.mem_map.mp hc with ⟨a, _, rfl⟩
  unfold quoteChar
  split
  · assumption
  · decide

theorem quoteChars_id_of_safe (l : List Char) (h : ∀ c ∈ l, isAlwaysSafe c = true) :
    quoteChars l = l := by
  induction l with
  | nil => rfl
  | cons a t ih =>
      unfold quoteChars at ih ⊢
      simp only [List.map_cons]
      rw [show quoteChar a = a from by
        unfold quoteChar; rw [if_pos (h a (List.mem_cons_self a t))]]
      rw [ih (fun c hc => h c (List.mem_cons_of_mem a hc))]

theorem exists_append_of_getLast? (l : List Char) (c : Char) (h : l.getLast? = some c) :
    ∃ t, l = t ++ [c] := by
  have h1 : l.reverse.head? = some c := by rw [List.head?_reverse]; exact h
  cases hr : l.reverse with
  | nil => rw [hr] at h1; simp at h1
  | cons x u =>
      rw [hr] at h1
      simp only [List.head?_cons, Option.some.injEq] at h1
      subst h1
      refine ⟨u.reverse, ?_⟩
      have h2 := congrArg List.reverse hr
      simpa using h2

theorem quote_core (d r v : List Char) (hr : r = replacePairs (stripDots d))
    (hv : v = pyFixLoop (r.length + 2) d r) :
    replacePairs v = v ∧ v.head? ≠ some '.' ∧ v.getLast? ≠ some '.' ∧ (∀ c ∈ v, c ∈ d) := by
  have hinit : r = d → replacePairs r = r := by
    intro he
    have hl1 : r.length = d.length := by rw [he]
    have hl2 := rp_length_le (stripDots d)
    have hl3 := stripDots_length_le d
    rw [hr] at hl1
    have hl4 : (stripDots d).length = d.length := by omega
    have hl5 : stripDots d = d := stripDots_eq_of_length _ hl4
    have hl6 : replacePairs (stripDots d) = stripDots d := by
      refine rp_eq_of_length _ ?_
      rw [hl5]
      rw [hl5] at hl1
      exact hl1
    rw [he]
    rw [← hl5]
    exact hl6
  refine ⟨?_, ?_, ?_, ?_⟩
  · rw [hv]
    exact pyFixLoop_fix _ _ _ (by omega) hinit
  · rw [hv]
    refine pyFixLoop_inv (fun l => l.head? ≠ some '.')
      (fun l hl => by show (replacePairs l).head? ≠ some '.'; rw [rp_head?]; exact hl) _ _ _ ?_
    show r.head? ≠ some '.'
    rw [hr, rp_head?]
    exact stripDots_head d
  · rw [hv]
    refine pyFixLoop_inv (fun l => l.getLast? ≠ some '.')
      (fun l hl => by show (replacePairs l).getLast? ≠ some '.'; rw [rp_getLast?]; exact hl)
      _ _ _ ?_
    show r.getLast? ≠ some '.'
    rw [hr, rp_getLast?]
    exact stripDots_getLast d
  · rw [hv]
    refine pyFixLoop_inv (fun l => ∀ c ∈ l, c ∈ d)
      (fun l hl c hc => hl c (rp_subset l c hc)) _ _ _ ?_
    intro c hc
    rw [hr] at hc
    exact stripDots_subset d c (rp_subset _ c hc)

theorem quote_dotted_data (s : String) : (quote_dotted s).data =
    pyFixLoop ((replacePairs (stripDots (quoteChars s.data))).length + 2)
      (quoteChars s.data) (replacePairs (stripDots (quoteChars s.data))) := rfl

theorem matchLit_self : ∀ (p r : List Char), matchLit p (p ++ r) = some r
  | [], r => rfl
  | c :: ps, r => by
    by_cases h : c = '.'
    · subst h
      show matchLit ('.' :: ps) ('.' :: (ps ++ r)) = some r
      rw [matchLit]
      rw [if_pos rfl, if_neg (by decide)]
      exact matchLit_self ps r
    · show matchLit (c :: ps) (c :: (ps ++ r)) = some r
      rw [matchLit, if_neg h, if_pos rfl]
      exact matchLit_self ps r

theorem matchLit_none_short : ∀ (p s : List Char), s.length < p.length → matchLit p s = none
  | [], s, h => by simp at h
  | c :: ps, [], h => rfl
  | c :: ps, x :: xs, h => by
      have hlt : xs.length < ps.length := by
        simp only [List.length_cons] at h
        omega
      rw [matchLit]
      split
      · rw [matchLit_none_short ps xs hlt]
        split <;> rfl
      · rw [matchLit_none_short ps xs hlt]
        split <;> rfl

theorem matchLit_sub : ∀ (p s r : List Char), matchLit p s = some r → ∀ c ∈ r, c ∈ s
  | [], s, r, h => by
      simp only [matchLit, Option.some.injEq] at h
      subst h
      exact fun c hc => hc
  | c :: ps, [], r, h => by simp [matchLit] at h
  | c :: ps, x :: xs, r, h => by
      rw [matchLit] at h
      split at h
      · split at h
        · simp at h
        · intro a ha
          exact List.mem_cons_of_mem x (matchLit_sub ps xs r h a ha)
      · split at h
        · intro a ha
          exact List.mem_cons_of_mem x (matchLit_sub ps xs r h a ha)
        · simp at h

theorem findDistGo_none (tail rest : List Char) (h0 : 0 < tail.length)
    (hle : rest.length ≤ tail.length) : ∀ j, findDistGo tail rest j = none := by
  intro j
  induction j with
  | zero => rfl
  | succ i ih =>
      rw [findDistGo]
      have hdrop : (rest.drop (i + 1)).length < tail.length := by
        rw [List.length_drop]
        omega
      rw [matchLit_none_short tail _ hdrop]
      simp only [Option.isSome_none, Bool.and_false]
      rw [if_neg (by decide : ¬ (false = true))]
      exact ih

theorem findDistGo_exact (tail S : List Char) (hS0 : S ≠ []) (hS2 : ∀ c ∈ S, c ≠ '\n')
    (htail : tail ≠ []) :
    ∀ j, S.length ≤ j → findDistGo tail (S ++ tail) j = some S := by
  intro j
  induction j with
  | zero =>
      intro h
      exact absurd (List.length_eq_zero.mp (Nat.le_zero.mp h)) hS0
  | succ i ih =>
      intro h
      rcases Nat.lt_or_ge S.length (i + 1) with hlt | hge
      · rw [findDistGo]
        have hdrop : ((S ++ tail).drop (i + 1)).length < tail.length := by
          rw [List.length_drop, List.length_append]
          cases tail with
          | nil => exact absurd rfl htail
          | cons x xs => simp only [List.length_cons]; omega
        rw [matchLit_none_short tail _ hdrop]
        simp only [Option.isSome_none, Bool.and_false]
        rw [if_neg (by decide : ¬ (false = true))]
        exact ih (by omega)
      · have heq : i + 1 = S.length := by omega
        rw [findDistGo, heq]
        rw [List.take_left, List.drop_left]
        have hml : matchLit tail tail = some [] := by
          have := matchLit_self tail []
          rwa [List.append_nil] at this
        rw [hml]
        have hcond : (S.all (· != '\n') && (some ([] : List Char)).isSome) = true := by
          simp only [Option.isSome_some, Bool.and_true, List.all_eq_true]
          intro c hc
          simpa using hS2 c hc
        rw [if_pos hcond]

theorem findDistGo_some (tail rest : List Char) :
    ∀ j d, findDistGo tail rest j = some d →
      ∃ i, 1 ≤ i ∧ d = rest.take i ∧ (matchLit tail (rest.drop i)).isSome = true := by
  intro j
  induction j with
  | zero =>
      intro d h
      rw [findDistGo] at h
      exact absurd h (by simp)
  | succ i ih =>
      intro d h
      rw [findDistGo] at h
      split at h
      · next hcond =>
          simp only [Option.some.injEq] at h
          subst h
          rw [Bool.and_eq_true] at hcond
          exact ⟨i + 1, by omega, rfl, hcond.2⟩
      · exact ih d h

theorem stripExtAux_sub : ∀ (l t : List Char), stripExtAux l = some t → ∀ c ∈ t, c ∈ l
  | [], t, h => by simp [stripExtAux] at h
  | x :: rest, t, h => by
      rw [stripExtAux] at h
      split at h
      · simp only [Option.some.injEq] at h
        subst h
        exact fun c hc => List.mem_cons_of_mem x hc
      · exact fun c hc => List.mem_cons_of_mem x (stripExtAux_sub rest t h c hc)

theorem stripExt_sub (l : List Char) : ∀ c ∈ stripExt l, c ∈ l := by
  unfold stripExt
  split
  · exact fun c hc => hc
  · next revRoot heq =>
      split
      · exact fun c hc => hc
      · intro c hc
        rw [List.mem_reverse] at hc
        have := stripExtAux_sub l.reverse revRoot heq c hc
        rwa [List.mem_reverse] at this

theorem stripExt_deb (base : List Char) (hb : ∃ c ∈ base, ¬ c = '.') :
    stripExt (base ++ ('.' :: 'd' :: 'e' :: 'b' :: [])) = base := by
  have hrev : (base ++ ('.' :: 'd' :: 'e' :: 'b' :: [])).reverse =
      'b' :: 'e' :: 'd' :: '.' :: base.reverse := by
    rw [List.reverse_append]
    rfl
  have haux : stripExtAux ((base ++ ('.' :: 'd' :: 'e' :: 'b' :: [])).reverse) =
      some base.reverse := by
    rw [hrev]
    rw [stripExtAux, if_neg (by decide)]
    rw [stripExtAux, if_neg (by decide)]
    rw [stripExtAux, if_neg (by decide)]
    rw [stripExtAux, if_pos rfl]
  unfold stripExt
  rw [haux]
  simp only [List.reverse_reverse]
  rw [if_neg]
  intro hall
  rcases hb with ⟨c, hc, hcd⟩
  rw [List.all_eq_true] at hall
  exact hcd (by simpa using hall c hc)

theorem FSle_refl (fs : FS) : FSle fs fs :=
  ⟨⟨[], by simp⟩, ⟨[], by simp⟩⟩

theorem FSle_trans (a b c : FS) (h1 : FSle a b) (h2 : FSle b c) : FSle a c := by
  obtain ⟨⟨nd1, hd1⟩, ⟨nf1, hf1⟩⟩ := h1
  obtain ⟨⟨nd2, hd2⟩, ⟨nf2, hf2⟩⟩ := h2
  exact ⟨⟨nd1 ++ nd2, by rw [hd2, hd1, List.append_assoc]⟩,
    ⟨nf1 ++ nf2, by rw [hf2, hf1, List.append_assoc]⟩⟩

theorem FSle_mkdirs (fs : FS) (d : String) : FSle fs (mkdirs fs d) := by
  unfold mkdirs
  split
  · exact FSle_refl fs
  · exact ⟨⟨[d], rfl⟩, ⟨[], by simp⟩⟩

theorem FSle_link (fs : FS) (src dst : String) : FSle fs (linkIfAbsent fs src dst) := by
  unfold linkIfAbsent
  split
  · exact FSle_refl fs
  · exact ⟨⟨[], by simp⟩, ⟨[(dst, src)], rfl⟩⟩

theorem FSle_step (debDir aptDir : String) (st : List String × FS) (deb : DebPackage) :
    FSle st.2 (groupStep debDir aptDir st deb).2 :=
  FSle_trans _ _ _ (FSle_mkdirs st.2 (debDestDir aptDir deb))
    (FSle_link _ (joinP debDir deb.name) (joinP (debDestDir aptDir deb) deb.name))

theorem FSle_fold (debDir aptDir : String) :
    ∀ (debs : List DebPackage) (dl : List String) (fs : FS),
      FSle fs (List.foldl (groupStep debDir aptDir) (dl, fs) debs).2
  | [], dl, fs => FSle_refl fs
  | deb :: rest, dl, fs => by
      rw [List.foldl_cons]
      have h1 := FSle_step debDir aptDir (dl, fs) deb
      have h2 := FSle_fold debDir aptDir rest (groupStep debDir aptDir (dl, fs) deb).1
        (groupStep debDir aptDir (dl, fs) deb).2
      exact FSle_trans _ _ _ h1 h2

theorem mem_dirs_of_FSle (fs fs2 : FS) (d : String) (h : FSle fs fs2) (hd : d ∈ fs.dirs) :
    d ∈ fs2.dirs := by
  obtain ⟨⟨nd, hnd⟩, _⟩ := h
  rw [hnd]
  exact List.mem_append_left _ hd

theorem pathExists_of_FSle (fs fs2 : FS) (p : String) (h : FSle fs fs2)
    (hp : pathExists fs p) : pathExists fs2 p := by
  obtain ⟨⟨nd, hnd⟩, ⟨nf, hnf⟩⟩ := h
  unfold pathExists at hp ⊢
  rw [hnd, hnf]
  rcases hp with h | h
  · exact Or.inl (List.mem_append_left _ h)
  · rw [List.map_append]
    exact Or.inr (List.mem_append_left _ h)

theorem mkdirs_mem (fs : FS) (d : String) : d ∈ (mkdirs fs d).dirs := by
  unfold mkdirs
  split
  · assumption
  · simp

theorem linkIfAbsent_dirs (fs : FS) (src dst : String) :
    (linkIfAbsent fs src dst).dirs = fs.dirs := by
  unfold linkIfAbsent
  split <;> rfl

theorem linkIfAbsent_exists (fs : FS) (src dst : String) :
    pathExists (linkIfAbsent fs src dst) dst := by
  unfold linkIfAbsent
  split
  · assumption
  · unfold pathExists
    simp

theorem mkdirs_noop (fs : FS) (d : String) (h : d ∈ fs.dirs) : mkdirs fs d = fs := by
  unfold mkdirs
  rw [if_pos h]

theorem link_noop (fs : FS) (src dst : String) (h : pathExists fs dst) :
    linkIfAbsent fs src dst = fs := by
  unfold linkIfAbsent
  rw [if_pos h]

theorem step_establishes (debDir aptDir : String) (st : List String × FS) (deb : DebPackage) :
    debDestDir aptDir deb ∈ (groupStep debDir aptDir st deb).2.dirs ∧
    pathExists (groupStep debDir aptDir st deb).2 (joinP (debDestDir aptDir deb) deb.name) := by
  constructor
  · show debDestDir aptDir deb ∈
      (linkIfAbsent (mkdirs st.2 (debDestDir aptDir deb)) _ _).dirs
    rw [linkIfAbsent_dirs]
    exact mkdirs_mem st.2 _
  · exact linkIfAbsent_exists _ _ _

theorem fold_establishes (debDir aptDir : String) :
    ∀ (debs : List DebPackage) (dl : List String) (fs : FS) (deb : DebPackage),
      deb ∈ debs →
      debDestDir aptDir deb ∈ (List.foldl (groupStep debDir aptDir) (dl, fs) debs).2.dirs ∧
      pathExists (List.foldl (groupStep debDir aptDir) (dl, fs) debs).2
        (joinP (debDestDir aptDir deb) deb.name)
  | [], dl, fs, deb, h => absurd h (List.not_mem_nil deb)
  | d0 :: rest, dl, fs, deb, h => by
      rw [List.foldl_cons]
      rcases List.mem_cons.mp h with heq | hmem
      · subst heq
        have hstep := step_establishes debDir aptDir (dl, fs) deb
        have hle : FSle (groupStep debDir aptDir (dl, fs) deb).2
            (List.foldl (groupStep debDir aptDir)
              ((groupStep debDir aptDir (dl, fs) deb).1,
               (groupStep debDir aptDir (dl, fs) deb).2) rest).2 :=
          FSle_fold debDir aptDir rest _ _
        constructor
        · exact mem_dirs_of_FSle _ _ _ hle hstep.1
        · exact pathExists_of_FSle _ _ _ hle hstep.2
      · exact fold_establishes debDir aptDir rest (groupStep debDir aptDir (dl, fs) d0).1
          (groupStep debDir aptDir (dl, fs) d0).2 deb hmem

theorem fold_fst (debDir aptDir : String) :
    ∀ (debs : List DebPackage) (dl : List String) (fs : FS),
      (List.foldl (groupStep debDir aptDir) (dl, fs) debs).1 =
        List.foldl (fun l deb => addDir l (debDestDir aptDir deb)) dl debs
  | [], dl, fs => rfl
  | deb :: rest, dl, fs => by
      rw [List.foldl_cons, List.foldl_cons]
      exact fold_fst debDir aptDir rest (addDir dl (debDestDir aptDir deb))
        (groupStep debDir aptDir (dl, fs) deb).2

theorem fold_noop (debDir aptDir : String) :
    ∀ (debs : List DebPackage) (dl : List String) (fs : FS),
      (∀ deb ∈ debs, debDestDir aptDir deb ∈ fs.dirs ∧
        pathExists fs (joinP (debDestDir aptDir deb) deb.name)) →
      (List.foldl (groupStep debDir aptDir) (dl, fs) debs).2 = fs
  | [], dl, fs, _ => rfl
  | deb :: rest, dl, fs, h => by
      rw [List.foldl_cons]
      obtain ⟨hd, hl⟩ := h deb (List.mem_cons_self deb rest)
      have hstep : groupStep debDir aptDir (dl, fs) deb = (addDir dl (debDestDir aptDir deb), fs) := by
        unfold groupStep
        simp only
        rw [mkdirs_noop fs _ hd, link_noop fs _ _ hl]
      rw [hstep]
      exact fold_noop debDir aptDir rest _ fs (fun d hd2 => h d (List.mem_cons_of_mem deb hd2))

theorem FrameInv_refl (fs0 : FS) : FrameInv fs0 fs0 :=
  ⟨[], [], by simp, by simp, by simp, by simp⟩

theorem FSle_of_frame (fs0 fs : FS) (h : FrameInv fs0 fs) : FSle fs0 fs := by
  obtain ⟨nd, nf, hd, hf, _, _⟩ := h
  exact ⟨⟨nd, hd⟩, ⟨nf, hf⟩⟩

theorem frame_mkdirs (fs0 fs : FS) (d : String) (h : FrameInv fs0 fs) :
    FrameInv fs0 (mkdirs fs d) := by
  obtain ⟨nd, nf, hd, hf, hnd, hnf⟩ := h
  unfold mkdirs
  split
  · exact ⟨nd, nf, hd, hf, hnd, hnf⟩
  · next hmem =>
      refine ⟨nd ++ [d], nf, ?_, hf, ?_, hnf⟩
      · simp only [mkdirs, hd, List.append_assoc]
      · intro x hx
        rcases List.mem_append.mp hx with hx | hx
        · exact hnd x hx
        · rw [List.mem_singleton] at hx
          subst hx
          intro hc
          exact hmem (by rw [hd]; exact List.mem_append_left _ hc)

theorem frame_link (fs0 fs : FS) (src dst : String) (h : FrameInv fs0 fs) :
    FrameInv fs0 (linkIfAbsent fs src dst) := by
  obtain ⟨nd, nf, hd, hf, hnd, hnf⟩ := h
  unfold linkIfAbsent
  split
  · exact ⟨nd, nf, hd, hf, hnd, hnf⟩
  · next hex =>
      refine ⟨nd, nf ++ [(dst, src)], hd, ?_, hnd, ?_⟩
      · simp only [hf, List.append_assoc]
      · intro e he
        rcases List.mem_append.mp he with he | he
        · exact hnf e he
        · rw [List.mem_singleton] at he
          subst he
          intro hc
          exact hex (pathExists_of_FSle fs0 fs dst ⟨⟨nd, hd⟩, ⟨nf, hf⟩⟩ hc)

theorem fold_frame (debDir aptDir : String) (fs0 : FS) :
    ∀ (debs : List DebPackage) (dl : List String) (fs : FS),
      FrameInv fs0 fs →
      FrameInv fs0 (List.foldl (groupStep debDir aptDir) (dl, fs) debs).2
  | [], dl, fs, h => h
  | deb :: rest, dl, fs, h => by
      rw [List.foldl_cons]
      have hstep : FrameInv fs0 (groupStep debDir aptDir (dl, fs) deb).2 :=
        frame_link fs0 _ _ _ (frame_mkdirs fs0 fs _ h)
      exact fold_frame debDir aptDir fs0 rest (groupStep debDir aptDir (dl, fs) deb).1
        (groupStep debDir aptDir (dl, fs) deb).2 hstep

theorem seg_eq : ∀ (p1 p2 a1 a2 : List Char), '/' ∉ a1 → '/' ∉ a2 →
    p1 ++ '/' :: a1 = p2 ++ '/' :: a2 → p1 = p2 ∧ a1 = a2
  | [], [], a1, a2, _, _, h => by
      simp only [List.nil_append, List.cons.injEq] at h
      exact ⟨rfl, h.2⟩
  | [], c :: t, a1, a2, h1, _, h => by
      exfalso
      simp only [List.nil_append, List.cons_append, List.cons.injEq] at h
      apply h1
      rw [h.2]
      exact List.mem_append_right _ (List.mem_cons_self '/' a2)
  | c :: t, [], a1, a2, _, h2, h => by
      exfalso
      simp only [List.nil_append, List.cons_append, List.cons.injEq] at h
      apply h2
      rw [← h.2]
      exact List.mem_append_right _ (List.mem_cons_self '/' a1)
  | c1 :: t1, c2 :: t2, a1, a2, h1, h2, h => by
      simp only [List.cons_append, List.cons.injEq] at h
      obtain ⟨rfl, htl⟩ := h
      obtain ⟨he1, he2⟩ := seg_eq t1 t2 a1 a2 h1 h2 htl
      exact ⟨by rw [he1], he2⟩

theorem getLast?_mem (l : List Char) (c : Char) (h : l.getLast? = some c) : c ∈ l := by
  rcases exists_append_of_getLast? l c h with ⟨t, rfl⟩
  exact List.mem_append_right _ (List.mem_singleton.mpr rfl)

theorem getLast?_not_slash (l : List Char) (hne : l ≠ []) (hsl : '/' ∉ l) :
    l.getLast? ≠ some '/' := by
  intro hc
  exact hsl (getLast?_mem l '/' hc)

theorem joinP_nil (x y : String) (hx : x.data = []) (hy0 : y.data ≠ []) (hy1 : '/' ∉ y.data) :
    joinP x y = y := by
  unfold joinP
  rw [if_neg, if_pos hx]
  intro hc
  cases hyd : y.data with
  | nil => exact hy0 hyd
  | cons c t =>
      rw [hyd] at hc
      simp only [List.head?_cons, Option.some.injEq] at hc
      apply hy1
      rw [hyd, hc]
      exact List.mem_cons_self '/' t

theorem joinP_data (x y : String) (hx : x.data ≠ []) (hy0 : y.data ≠ []) (hy1 : '/' ∉ y.data) :
    (joinP x y).data = preData x ++ '/' :: y.data := by
  unfold joinP
  rw [if_neg, if_neg hx]
  · unfold preData
    split
    · next hlast =>
        rcases exists_append_of_getLast? x.data '/' hlast with ⟨t, ht⟩
        show x.data ++ y.data = x.data.dropLast ++ '/' :: y.data
        rw [ht, List.dropLast_concat, List.append_assoc]
        rfl
    · rfl
  · intro hc
    cases hyd : y.data with
    | nil => exact hy0 hyd
    | cons c t =>
        rw [hyd] at hc
        simp only [List.head?_cons, Option.some.injEq] at hc
        apply hy1
        rw [hyd, hc]
        exact List.mem_cons_self '/' t

theorem joinP_ne_nil (x y : String) (hy0 : y.data ≠ []) (hy1 : '/' ∉ y.data) :
    (joinP x y).data ≠ [] := by
  by_cases hx : x.data = []
  · rw [joinP_nil x y hx hy0 hy1]
    exact hy0
  · rw [joinP_data x y hx hy0 hy1]
    simp

theorem joinP_getLast (x y : String) (hy0 : y.data ≠ []) (hy1 : '/' ∉ y.data) :
    (joinP x y).data.getLast? = y.data.getLast? := by
  by_cases hx : x.data = []
  · rw [joinP_nil x y hx hy0 hy1]
  · rw [joinP_data x y hx hy0 hy1]
    rw [List.getLast?_append_of_ne_nil _ (by simp)]
    cases hyd : y.data with
    | nil => exact absurd hyd hy0
    | cons c t => exact getLast?_cons_ne '/' (c :: t) (by simp)

theorem debDestDir_pairDir (aptDir : String) (deb : DebPackage) :
    debDestDir aptDir deb = pairDir aptDir (get_deb_dist_arch deb).1 deb.arch := by
  unfold debDestDir
  split
  · next heq => rw [heq]; rfl
  · next dist heq => rw [heq]; rfl

theorem preData_of_not_slash (x : String) (h : x.data.getLast? ≠ some '/') :
    preData x = x.data := by
  unfold preData
  rw [if_neg h]

theorem join_join_data (aptDir dist ar : String) (hd0 : dist.data ≠ []) (hds : '/' ∉ dist.data)
    (har : ar.data ≠ []) (hars : '/' ∉ ar.data) (hx : aptDir.data ≠ []) :
    (joinP (joinP aptDir dist) ar).data =
      preData aptDir ++ '/' :: (dist.data ++ '/' :: ar.data) := by
  have hXdata : (joinP aptDir dist).data = preData aptDir ++ '/' :: dist.data :=
    joinP_data _ _ hx hd0 hds
  have hXne : (joinP aptDir dist).data ≠ [] := joinP_ne_nil _ _ hd0 hds
  have hXlast : (joinP aptDir dist).data.getLast? ≠ some '/' := by
    rw [joinP_getLast _ _ hd0 hds]
    exact getLast?_not_slash _ hd0 hds
  rw [joinP_data _ _ hXne har hars, preData_of_not_slash _ hXlast, hXdata, List.append_assoc]
  rfl

theorem join_join_nil_data (aptDir dist ar : String) (hd0 : dist.data ≠ [])
    (hds : '/' ∉ dist.data) (har : ar.data ≠ []) (hars : '/' ∉ ar.data)
    (hx : aptDir.data = []) :
    (joinP (joinP aptDir dist) ar).data = dist.data ++ '/' :: ar.data := by
  have hX : joinP aptDir dist = dist := joinP_nil _ _ hx hd0 hds
  rw [hX]
  have hlast : dist.data.getLast? ≠ some '/' := getLast?_not_slash _ hd0 hds
  rw [joinP_data _ _ hd0 har hars, preData_of_not_slash _ hlast]

theorem pairDir_inj (aptDir : String) (o1 o2 : Option String) (ar1 ar2 : String)
    (har1 : ar1.data ≠ []) (har1s : '/' ∉ ar1.data)
    (har2 : ar2.data ≠ []) (har2s : '/' ∉ ar2.data)
    (ho1 : ∀ s, o1 = some s → s.data ≠ [] ∧ '/' ∉ s.data)
    (ho2 : ∀ s, o2 = some s → s.data ≠ [] ∧ '/' ∉ s.data)
    (h : pairDir aptDir o1 ar1 = pairDir aptDir o2 ar2) : o1 = o2 ∧ ar1 = ar2 := by
  cases o1 with
  | none =>
    cases o2 with
    | none =>
        refine ⟨rfl, ?_⟩
        simp only [pairDir] at h
        by_cases hx : aptDir.data = []
        · rw [joinP_nil _ _ hx har1 har1s, joinP_nil _ _ hx har2 har2s] at h
          exact h
        · have hd := congrArg String.data h
          rw [joinP_data _ _ hx har1 har1s, joinP_data _ _ hx har2 har2s] at hd
          obtain ⟨_, ha⟩ := seg_eq _ _ _ _ har1s har2s hd
          exact String.ext ha
    | some dist =>
        exfalso
        obtain ⟨hd0, hds⟩ := ho2 dist rfl
        simp only [pairDir] at h
        have hd := congrArg String.data h
        by_cases hx : aptDir.data = []
        · rw [congrArg String.data (joinP_nil _ _ hx har1 har1s),
            join_join_nil_data _ _ _ hd0 hds har2 har2s hx] at hd
          exact har1s (by rw [hd]; exact List.mem_append_right _ (List.mem_cons_self '/' _))
        · rw [joinP_data _ _ hx har1 har1s,
            join_join_data _ _ _ hd0 hds har2 har2s hx] at hd
          have := List.append_cancel_left hd
          simp only [List.cons.injEq] at this
          exact har1s (by rw [this.2]; exact List.mem_append_right _ (List.mem_cons_self '/' _))
  | some dist1 =>
    cases o2 with
    | none =>
        exfalso
        obtain ⟨hd0, hds⟩ := ho1 dist1 rfl
        simp only [pairDir] at h
        have hd := congrArg String.data h
        by_cases hx : aptDir.data = []
        · rw [congrArg String.data (joinP_nil _ _ hx har2 har2s),
            join_join_nil_data _ _ _ hd0 hds har1 har1s hx] at hd
          exact har2s (by rw [← hd]; exact List.mem_append_right _ (List.mem_cons_self '/' _))
        · rw [joinP_data _ _ hx har2 har2s,
            join_join_data _ _ _ hd0 hds har1 har1s hx] at hd
          have := List.append_cancel_left hd
          simp only [List.cons.injEq] at this
          exact har2s (by rw [← this.2]; exact List.mem_append_right _ (List.mem_cons_self '/' _))
    | some dist2 =>
        obtain ⟨hd01, hds1⟩ := ho1 dist1 rfl
        obtain ⟨hd02, hds2⟩ := ho2 dist2 rfl
        simp only [pairDir] at h
        have hd := congrArg String.data h
        by_cases hx : aptDir.data = []
        · rw [join_join_nil_data _ _ _ hd01 hds1 har1 har1s hx,
            join_join_nil_data _ _ _ hd02 hds2 har2 har2s hx] at hd
          obtain ⟨hdist, ha⟩ := seg_eq _ _ _ _ har1s har2s hd
          exact ⟨by rw [String.ext hdist], String.ext ha⟩
        · rw [join_join_data _ _ _ hd01 hds1 har1 har1s hx,
            join_join_data _ _ _ hd02 hds2 har2 har2s hx] at hd
          have h2 := List.append_cancel_left hd
          simp only [List.cons.injEq, true_and] at h2
          obtain ⟨hdist, ha⟩ := seg_eq _ _ _ _ har1s har2s h2
          exact ⟨by rw [String.ext hdist], String.ext ha⟩

theorem debMatch_dist (p v a bn d : List Char) (h : debMatch p v a bn = some (some d)) :
    d ≠ [] ∧ ∀ c ∈ d, c ∈ bn := by
  unfold debMatch at h
  split at h
  · exact absurd h (by simp)
  · next r0 heq =>
      unfold debMatchGroup at h
      split at h
      · next d2 hvd =>
          simp only [Option.some.injEq] at h
          subst h
          cases r0 with
          | nil => exact absurd hvd (by rw [debViaDist]; simp)
          | cons c rest =>
              rw [show debViaDist (debTail v a) (c :: rest) =
                  if sepClass c = true then findDist (debTail v a) rest else none from rfl] at hvd
              split at hvd
              · unfold findDist at hvd
                obtain ⟨i, hi1, hdeq, hsome⟩ := findDistGo_some _ _ _ _ hvd
                constructor
                · intro hnil
                  rw [hnil] at hdeq
                  have hrest : rest = [] := by
                    cases rest with
                    | nil => rfl
                    | cons x xs =>
                        exfalso
                        cases i with
                        | zero => omega
                        | succ n => simp [List.take] at hdeq
                  rw [hrest] at hsome
                  simp only [List.drop_nil] at hsome
                  rw [show matchLit (debTail v a) [] = none from rfl] at hsome
                  simp at hsome
                · intro x hx
                  rw [hdeq] at hx
                  have h1 : x ∈ rest := List.take_subset i rest hx
                  exact matchLit_sub p bn (c :: rest) heq x (List.mem_cons_of_mem c h1)
              · exact absurd hvd (by simp)
      · split at h
        · exact absurd h (by simp)
        · exact absurd h (by simp)

theorem get_arch (deb : DebPackage) : (get_deb_dist_arch deb).2 = deb.arch := by
  unfold get_deb_dist_arch
  split <;> rfl

theorem get_dist_spec (deb : DebPackage) (s : String)
    (h : (get_deb_dist_arch deb).1 = some s) :
    s.data ≠ [] ∧ ∀ c ∈ s.data, c ∈ deb.name.data := by
  unfold get_deb_dist_arch at h
  split at h
  · next d hm =>
      simp only [Option.some.injEq] at h
      obtain ⟨hne, hsub⟩ := debMatch_dist _ _ _ _ _ hm
      constructor
      · rw [← h]
        exact hne
      · intro c hc
        rw [← h] at hc
        exact stripExt_sub deb.name.data c (hsub c hc)
  · simp at h

set_option maxHeartbeats 1600000 in
theorem pubKeyBasename_eval : pubKeyBasename "a<" = "a.pub.key" := by decide

set_option maxHeartbeats 1600000 in
theorem pubKeyBasenameSpec_eval : pubKeyBasenameSpec "a<" = "a..pub.key" := by decide

/-- Claim C1: for control fields without regex metacharacters, a `*.deb` file
whose stripped base name is exactly `package_version_arch` resolves to
distribution `None` paired with the control-field architecture, in both the
latest (`repo.py`) and the older (`__init__.py`) revision of
`get_deb_dist_arch`. -/
theorem resolver_exact_none (p v a : String) (hp : metaFree p) (hv : metaFree v)
    (ha : metaFree a) :
    get_deb_dist_arch ⟨p ++ "_" ++ v ++ "_" ++ a ++ ".deb", p, v, a⟩ = (none, a) ∧
    init_get_deb_dist_arch ⟨p ++ "_" ++ v ++ "_" ++ a ++ ".deb", p, v, a⟩ = some (none, a) := by
  have hname : (p ++ "_" ++ v ++ "_" ++ a ++ ".deb").data =
      (p.data ++ '_' :: (v.data ++ '_' :: a.data)) ++ ('.' :: 'd' :: 'e' :: 'b' :: []) := by
    show p.data ++ "_".data ++ v.data ++ "_".data ++ a.data ++ ".deb".data = _
    simp [List.append_assoc]
  have hse : stripExt (p ++ "_" ++ v ++ "_" ++ a ++ ".deb").data =
      p.data ++ '_' :: (v.data ++ '_' :: a.data) := by
    rw [hname]
    exact stripExt_deb _ ⟨'_', by simp, by decide⟩
  have hmatch : debMatch p.data v.data a.data (p.data ++ '_' :: (v.data ++ '_' :: a.data)) =
      some none := by
    unfold debMatch
    rw [matchLit_self p.data ('_' :: (v.data ++ '_' :: a.data))]
    have hfd : findDist (debTail v.data a.data) (v.data ++ '_' :: a.data) = none := by
      unfold findDist
      refine findDistGo_none _ _ ?_ ?_ _ <;> simp [debTail]
    have hvd : debViaDist (debTail v.data a.data) ('_' :: (v.data ++ '_' :: a.data)) = none := by
      show (if sepClass '_' = true then
        findDist (debTail v.data a.data) (v.data ++ '_' :: a.data) else none) = none
      rw [if_pos (show sepClass '_' = true by decide), hfd]
    show debMatchGroup (debTail v.data a.data) ('_' :: (v.data ++ '_' :: a.data)) = some none
    unfold debMatchGroup
    rw [hvd]
    have hml : matchLit (debTail v.data a.data) ('_' :: (v.data ++ '_' :: a.data)) =
        some [] := by
      have := matchLit_self (debTail v.data a.data) []
      rwa [List.append_nil] at this
    rw [hml]
    rfl
  constructor
  · unfold get_deb_dist_arch
    simp only
    rw [hse, hmatch]
  · unfold init_get_deb_dist_arch
    simp only
    rw [hse, hmatch]
    rfl

/-- Claim C2 counterexample: with control fields `(pkg, 1, amd64)` and base
name `pkg-x\ny_1_amd64` (separator `-`, suffix `x\ny` which is non-empty and
contains no underscore), the resolver does not return the suffix as the
distribution: the greedy `.+` of the pattern cannot match across the newline,
the match fails, and the resolver returns distribution `None`. -/
theorem resolver_dist_newline_cex :
    get_deb_dist_arch ⟨"pkg-x\ny_1_amd64.deb", "pkg", "1", "amd64"⟩ ≠
      (some "x\ny", "amd64") := by decide

/-- Claim C2 as amended: for metacharacter-free control fields and a base name
`package SEP suffix _version_arch` with `SEP` one of `-`, `_`, `.` and the
suffix non-empty, free of `_`, and free of newlines, the resolver returns
exactly the suffix as the distribution (the greedy capture may itself contain
further separators). -/
theorem resolver_dist_suffix (p v a S : String) (sep : Char) (hp : metaFree p)
    (hv : metaFree v) (ha : metaFree a)
    (hsep : sep = '-' ∨ sep = '_' ∨ sep = '.')
    (hS0 : S.data ≠ []) (hS1 : '_' ∉ S.data) (hS2 : '\n' ∉ S.data) :
    get_deb_dist_arch
      ⟨p ++ String.singleton sep ++ S ++ "_" ++ v ++ "_" ++ a ++ ".deb", p, v, a⟩ =
      (some S, a) := by
  have hsing : (String.singleton sep).data = [sep] := rfl
  have hname : (p ++ String.singleton sep ++ S ++ "_" ++ v ++ "_" ++ a ++ ".deb").data =
      (p.data ++ sep :: (S.data ++ '_' :: (v.data ++ '_' :: a.data))) ++
        ('.' :: 'd' :: 'e' :: 'b' :: []) := by
    show p.data ++ (String.singleton sep).data ++ S.data ++ "_".data ++ v.data ++ "_".data ++
      a.data ++ ".deb".data = _
    rw [hsing]
    simp [List.append_assoc]
  have hse : stripExt (p ++ String.singleton sep ++ S ++ "_" ++ v ++ "_" ++ a ++ ".deb").data =
      p.data ++ sep :: (S.data ++ '_' :: (v.data ++ '_' :: a.data)) := by
    rw [hname]
    refine stripExt_deb _ ⟨'_', ?_, by decide⟩
    simp
  have hfd : findDist (debTail v.data a.data)
      (S.data ++ debTail v.data a.data) = some S.data := by
    unfold findDist
    refine findDistGo_exact _ _ hS0 (fun c hc hcn => hS2 (by rw [← hcn]; exact hc))
      (by simp [debTail]) _ ?_
    simp
  have hmatch : debMatch p.data v.data a.data
      (p.data ++ sep :: (S.data ++ '_' :: (v.data ++ '_' :: a.data))) = some (some S.data) := by
    unfold debMatch
    rw [matchLit_self p.data (sep :: (S.data ++ '_' :: (v.data ++ '_' :: a.data)))]
    have hsepc : sepClass sep = true := by
      rcases hsep with h | h | h <;> rw [h] <;> decide
    have hvd : debViaDist (debTail v.data a.data)
        (sep :: (S.data ++ '_' :: (v.data ++ '_' :: a.data))) = some S.data := by
      show (if sepClass sep = true then
        findDist (debTail v.data a.data) (S.data ++ '_' :: (v.data ++ '_' :: a.data))
        else none) = some S.data
      rw [if_pos hsepc]
      exact hfd
    show debMatchGroup (debTail v.data a.data)
      (sep :: (S.data ++ '_' :: (v.data ++ '_' :: a.data))) = some (some S.data)
    unfold debMatchGroup
    rw [hvd]
  unfold get_deb_dist_arch
  simp only
  rw [hse, hmatch]

/-- Claim C3 counterexample: on the non-matching base name `mismatched` with
control fields `(pkg, 1, amd64)`, the latest-revision resolver does not
signal an error: it returns the grouping `(None, amd64)`.  Only the older
`__init__.py` revision fails (its unguarded `.group(2)` raises). -/
theorem resolver_unmatched_cex :
    get_deb_dist_arch ⟨"mismatched.deb", "pkg", "1", "amd64"⟩ = (none, "amd64") ∧
    init_get_deb_dist_arch ⟨"mismatched.deb", "pkg", "1", "amd64"⟩ = none := by
  constructor <;> decide

/-- Claim C3 as amended: for every `*.deb` file whose stripped base name does
not match the instantiated pattern, the latest-revision resolver (`repo.py`)
returns distribution `None`, grouping the file under the architecture-only
directory, while the older revision (`__init__.py`) raises instead of
returning a grouping. -/
theorem resolver_unmatched (deb : DebPackage)
    (h : debMatch deb.package.data deb.version.data deb.arch.data (stripExt deb.name.data) =
      none) :
    get_deb_dist_arch deb = (none, deb.arch) ∧ init_get_deb_dist_arch deb = none := by
  unfold get_deb_dist_arch init_get_deb_dist_arch
  rw [h]
  exact ⟨rfl, rfl⟩

/-- Claim C4: grouping is idempotent.  If a `group_debs` run over a list of
`*.deb` files succeeds, running it again over the same files, the same
directories and the resulting filesystem returns the same set of group
directories, leaves the filesystem untouched (no new links or directories,
pre-existing links with the same base name are left alone), and signals no
error. -/
theorem group_debs_idempotent (debs : List DebPackage) (debDir aptDir : String) (fs : FS)
    (ds : List String) (fs1 : FS)
    (h : group_debs debs debDir aptDir fs = .ok (ds, fs1)) :
    group_debs debs debDir aptDir fs1 = .ok (ds, fs1) := by
  unfold group_debs at h ⊢
  split at h
  · exact absurd h (by simp)
  · next hne =>
      simp only [Except.ok.injEq] at h
      have hfst : (List.foldl (groupStep debDir aptDir) ([], fs) debs).1 = ds := by
        rw [h]
      have hsnd : (List.foldl (groupStep debDir aptDir) ([], fs) debs).2 = fs1 := by
        rw [h]
      have hfst2 : (List.foldl (groupStep debDir aptDir) ([], fs1) debs).1 = ds := by
        rw [fold_fst, ← hfst, fold_fst]
      have hsnd2 : (List.foldl (groupStep debDir aptDir) ([], fs1) debs).2 = fs1 := by
        refine fold_noop debDir aptDir debs [] fs1 ?_
        intro deb hdeb
        have := fold_establishes debDir aptDir debs [] fs deb hdeb
        rw [hsnd] at this
        exact this
      rw [if_neg]
      · rw [show (List.foldl (groupStep debDir aptDir) ([], fs1) debs) = (ds, fs1) from
          Prod.ext hfst2 hsnd2]
      · rw [hfst2]
        rw [hfst] at hne
        exact hne

/-- Claim C5: grouping partitions by group key.  For two `*.deb` files whose
names and architecture fields are slash-free (with a non-empty architecture),
their resolved `(distribution, architecture)` pairs are equal exactly when
`group_debs` links them into the same destination directory. -/
theorem group_debs_partition (aptDir : String) (d1 d2 : DebPackage)
    (hn1 : '/' ∉ d1.name.data) (hn2 : '/' ∉ d2.name.data)
    (ha1 : d1.arch.data ≠ []) (ha1s : '/' ∉ d1.arch.data)
    (ha2 : d2.arch.data ≠ []) (ha2s : '/' ∉ d2.arch.data) :
    get_deb_dist_arch d1 = get_deb_dist_arch d2 ↔
      debDestDir aptDir d1 = debDestDir aptDir d2 := by
  constructor
  · intro h
    rw [debDestDir_pairDir, debDestDir_pairDir]
    have h1 : (get_deb_dist_arch d1).1 = (get_deb_dist_arch d2).1 := by rw [h]
    have h2 : d1.arch = d2.arch := by
      rw [← get_arch d1, ← get_arch d2, h]
    rw [h1, h2]
  · intro h
    rw [debDestDir_pairDir, debDestDir_pairDir] at h
    obtain ⟨ho, ha⟩ := pairDir_inj aptDir (get_deb_dist_arch d1).1 (get_deb_dist_arch d2).1
      d1.arch d2.arch ha1 ha1s ha2 ha2s
      (fun s hs => by
        obtain ⟨hne, hsub⟩ := get_dist_spec d1 s hs
        exact ⟨hne, fun hc => hn1 (hsub '/' hc)⟩)
      (fun s hs => by
        obtain ⟨hne, hsub⟩ := get_dist_spec d2 s hs
        exact ⟨hne, fun hc => hn2 (hsub '/' hc)⟩)
      h
    have e1 : get_deb_dist_arch d1 = ((get_deb_dist_arch d1).1, d1.arch) :=
      Prod.ext rfl (get_arch d1)
    have e2 : get_deb_dist_arch d2 = ((get_deb_dist_arch d2).1, d2.arch) :=
      Prod.ext rfl (get_arch d2)
    rw [e1, e2, ho, ha]

/-- Claim C6: on a source directory with zero `*.deb` files, `group_debs`
signals the no-packages-found error (the `ValueError` of `repo.py` lines
86-88, which the spec names `NoPackagesFoundError`) instead of returning a
set of group directories. -/
theorem group_debs_empty (debDir aptDir : String) (fs : FS) :
    group_debs [] debDir aptDir fs = .error (.noPackagesFound debDir) := rfl

/-- Claim C7: the filename match is anchored only at the start.  The base name
`pkg_1_amd64extra` is a full template match followed by trailing characters;
the resolver still succeeds (the match does not return `none`), signals no
error, and returns the same `(None, amd64)` as for `pkg_1_amd64`. -/
theorem resolver_trailing_ok :
    get_deb_dist_arch ⟨"pkg_1_amd64extra.deb", "pkg", "1", "amd64"⟩ = (none, "amd64") ∧
    get_deb_dist_arch ⟨"pkg_1_amd64.deb", "pkg", "1", "amd64"⟩ = (none, "amd64") ∧
    debMatch "pkg".data "1".data "amd64".data (stripExt ("pkg_1_amd64extra").data) ≠ none := by
  refine ⟨by decide, by decide, by decide⟩

/-- Claim C8: `group_debs` only adds to the filesystem.  After a successful
run, the previous directory list and file list are unchanged prefixes of the
new ones, and every added directory or file sits at a path that did not exist
before the run, so nothing is overwritten, deleted or modified. -/
theorem group_debs_frame (debs : List DebPackage) (debDir aptDir : String) (fs : FS)
    (ds : List String) (fs1 : FS)
    (h : group_debs debs debDir aptDir fs = .ok (ds, fs1)) :
    ∃ nd nf, fs1.dirs = fs.dirs ++ nd ∧ fs1.files = fs.files ++ nf ∧
      (∀ d ∈ nd, d ∉ fs.dirs) ∧ (∀ e ∈ nf, ¬ pathExists fs e.1) := by
  unfold group_debs at h
  split at h
  · exact absurd h (by simp)
  · simp only [Except.ok.injEq] at h
    have hsnd : (List.foldl (groupStep debDir aptDir) ([], fs) debs).2 = fs1 := by rw [h]
    have := fold_frame debDir aptDir fs debs [] fs (FrameInv_refl fs)
    rw [hsnd] at this
    exact this

/-- Claim C9 counterexample: for the signer id `a<` the source derivation
(quote, append `.pub.key`, then collapse double dots) yields `a.pub.key`,
while the spec's stated order (quote, collapse, then append `.pub.key`)
yields `a..pub.key`: the two derivations differ. -/
theorem pubKeyBasename_cex : pubKeyBasename "a<" ≠ pubKeyBasenameSpec "a<" := by
  rw [pubKeyBasename_eval, pubKeyBasenameSpec_eval]
  decide

/-- Claim C9 as amended: the public key filename is derived from the signer's
GPG user id by safe-character passthrough with every other character replaced
by a dot, appending `.pub.key` first and then collapsing consecutive dots to
a single dot until none remain; consequently the whole filename contains no
two consecutive dots and still ends with `.pub.key`. -/
theorem pubKeyBasename_props (uid : String) :
    hasDD (pubKeyBasename uid).data = false ∧
    ∃ l, (pubKeyBasename uid).data = l ++ (".pub.key").data := by
  have hv : (pubKeyBasename uid).data =
      pyFixLoop ((replacePairs (quoteChars uid.data ++ (".pub.key").data)).length + 2)
        (quoteChars uid.data ++ (".pub.key").data)
        (replacePairs (quoteChars uid.data ++ (".pub.key").data)) := rfl
  have hfix : replacePairs (pubKeyBasename uid).data = (pubKeyBasename uid).data := by
    rw [hv]
    refine pyFixLoop_fix _ _ _ (by omega) ?_
    intro he
    rw [he]
    exact he
  refine ⟨hasDD_false_of_fix _ hfix, ?_⟩
  have hdecomp : quoteChars uid.data ++ (".pub.key").data =
      (quoteChars uid.data ++ ['.']) ++ ("pub.key").data := by
    rw [List.append_assoc]
    rfl
  have hpk1 : (("pub.key").data).head? ≠ some '.' := by decide
  have hpk2 : replacePairs (("pub.key").data) = ("pub.key").data := by decide
  have hrp : replacePairs (quoteChars uid.data ++ (".pub.key").data) =
      replacePairs (quoteChars uid.data ++ ['.']) ++ ("pub.key").data := by
    rw [hdecomp, rp_append _ _ hpk1, hpk2]
  have happ : (pubKeyBasename uid).data =
      pyFixLoop ((replacePairs (quoteChars uid.data ++ (".pub.key").data)).length + 2)
        (quoteChars uid.data ++ ['.'])
        (replacePairs (quoteChars uid.data ++ ['.'])) ++ ("pub.key").data := by
    rw [hv]
    generalize (replacePairs (quoteChars uid.data ++ (".pub.key").data)).length + 2 = n
    conv_lhs => rw [hrp, hdecomp]
    exact pyFixLoop_append _ hpk1 hpk2 n _ _
  have hXlast : (quoteChars uid.data ++ ['.']).getLast? = some '.' := by
    rw [List.getLast?_append_of_ne_nil _ (by simp)]
    rfl
  have hZlast : (pyFixLoop ((replacePairs (quoteChars uid.data ++ (".pub.key").data)).length + 2)
      (quoteChars uid.data ++ ['.'])
      (replacePairs (quoteChars uid.data ++ ['.']))).getLast? = some '.' := by
    refine pyFixLoop_inv (fun l => l.getLast? = some '.')
      (fun l hl => by show (replacePairs l).getLast? = some '.'; rw [rp_getLast?]; exact hl)
      _ _ _ ?_
    show (replacePairs (quoteChars uid.data ++ ['.'])).getLast? = some '.'
    rw [rp_getLast?]
    exact hXlast
  rcases exists_append_of_getLast? _ _ hZlast with ⟨t, ht⟩
  refine ⟨t, ?_⟩
  rw [happ, ht, List.append_assoc]
  rfl

/-- Claim C10: `quote_dotted` is normalizing and idempotent.  Its output
contains no two consecutive dots, neither starts nor ends with a dot, and
applying `quote_dotted` to its own output returns it unchanged (the
replace-until-fixpoint loop terminates at a true fixpoint). -/
theorem quote_dotted_normalizes (orig : String) :
    hasDD (quote_dotted orig).data = false ∧
    (quote_dotted orig).data.head? ≠ some '.' ∧
    (quote_dotted orig).data.getLast? ≠ some '.' ∧
    quote_dotted (quote_dotted orig) = quote_dotted orig := by
  obtain ⟨hfix, hhead, hlast, hsub⟩ :=
    quote_core (quoteChars orig.data) (replacePairs (stripDots (quoteChars orig.data)))
      (quote_dotted orig).data rfl (quote_dotted_data orig)
  have hsafe : ∀ c ∈ (quote_dotted orig).data, isAlwaysSafe c = true :=
    fun c hc => quoteChars_safe orig.data c (hsub c hc)
  refine ⟨hasDD_false_of_fix _ hfix, hhead, hlast, ?_⟩
  have hq : quoteChars (quote_dotted orig).data = (quote_dotted orig).data :=
    quoteChars_id_of_safe _ hsafe
  have hs : stripDots (quote_dotted orig).data = (quote_dotted orig).data :=
    stripDots_self _ hhead hlast
  have hv2 := quote_dotted_data (quote_dotted orig)
  apply String.ext
  rw [hv2, hq, hs, hfix]
  exact pyFixLoop_of_eq _ _ _ rfl

/-- Witness for the claim C1 theorem at the concrete triple
`(mypkg, 1.2.3, amd64)`. -/
theorem resolver_exact_none_witness :
    get_deb_dist_arch
      ⟨"mypkg" ++ "_" ++ "1.2.3" ++ "_" ++ "amd64" ++ ".deb", "mypkg", "1.2.3", "amd64"⟩ =
      (none, "amd64") ∧
    init_get_deb_dist_arch
      ⟨"mypkg" ++ "_" ++ "1.2.3" ++ "_" ++ "amd64" ++ ".deb", "mypkg", "1.2.3", "amd64"⟩ =
      some (none, "amd64") :=
  resolver_exact_none "mypkg" "1.2.3" "amd64" (by decide) (by decide) (by decide)

/-- Witness for the amended claim C2 theorem: `mypkg-bionic_1.2.3_amd64.deb`
resolves to distribution `bionic`. -/
theorem resolver_dist_suffix_witness :
    get_deb_dist_arch
      ⟨"mypkg" ++ String.singleton '-' ++ "bionic" ++ "_" ++ "1.2.3" ++ "_" ++ "amd64" ++
        ".deb", "mypkg", "1.2.3", "amd64"⟩ = (some "bionic", "amd64") :=
  resolver_dist_suffix "mypkg" "1.2.3" "amd64" "bionic" '-' (by decide) (by decide) (by decide)
    (Or.inl rfl) (by decide) (by decide) (by decide)

/-- Witness for the amended claim C3 theorem at the non-matching base name
`oddname`. -/
theorem resolver_unmatched_witness :
    get_deb_dist_arch ⟨"oddname.deb", "pkg", "1", "amd64"⟩ = (none, "amd64") ∧
    init_get_deb_dist_arch ⟨"oddname.deb", "pkg", "1", "amd64"⟩ = none :=
  resolver_unmatched ⟨"oddname.deb", "pkg", "1", "amd64"⟩ (by decide)

/-- Witness for the claim C4 theorem: a concrete one-file run linked into
`apt/amd64`, then the identical second run. -/
theorem group_debs_idempotent_witness :
    group_debs [⟨"pkg_1_amd64.deb", "pkg", "1", "amd64"⟩] "debs" "apt" ⟨[], []⟩ =
      .ok (["apt/amd64"],
        ⟨["apt/amd64"], [("apt/amd64/pkg_1_amd64.deb", "debs/pkg_1_amd64.deb")]⟩) ∧
    group_debs [⟨"pkg_1_amd64.deb", "pkg", "1", "amd64"⟩] "debs" "apt"
      ⟨["apt/amd64"], [("apt/amd64/pkg_1_amd64.deb", "debs/pkg_1_amd64.deb")]⟩ =
      .ok (["apt/amd64"],
        ⟨["apt/amd64"], [("apt/amd64/pkg_1_amd64.deb", "debs/pkg_1_amd64.deb")]⟩) :=
  ⟨by decide,
   group_debs_idempotent [⟨"pkg_1_amd64.deb", "pkg", "1", "amd64"⟩] "debs" "apt" ⟨[], []⟩
     ["apt/amd64"] ⟨["apt/amd64"], [("apt/amd64/pkg_1_amd64.deb", "debs/pkg_1_amd64.deb")]⟩
     (by decide)⟩

/-- Witness for the claim C5 theorem: a plain `a_1.0_amd64.deb` against
`a-focal_1.0_amd64.deb`. -/
theorem group_debs_partition_witness :
    get_deb_dist_arch ⟨"a_1.0_amd64.deb", "a", "1.0", "amd64"⟩ =
      get_deb_dist_arch ⟨"a-focal_1.0_amd64.deb", "a", "1.0", "amd64"⟩ ↔
    debDestDir "apt" ⟨"a_1.0_amd64.deb", "a", "1.0", "amd64"⟩ =
      debDestDir "apt" ⟨"a-focal_1.0_amd64.deb", "a", "1.0", "amd64"⟩ :=
  group_debs_partition "apt" ⟨"a_1.0_amd64.deb", "a", "1.0", "amd64"⟩
    ⟨"a-focal_1.0_amd64.deb", "a", "1.0", "amd64"⟩
    (by decide) (by decide) (by decide) (by decide) (by decide) (by decide)

/-- Witness for the claim C8 theorem at the concrete one-file run. -/
theorem group_debs_frame_witness :
    ∃ nd nf,
      (⟨["apt/amd64"], [("apt/amd64/pkg_1_amd64.deb", "debs/pkg_1_amd64.deb")]⟩ : FS).dirs =
        (⟨[], []⟩ : FS).dirs ++ nd ∧
      (⟨["apt/amd64"], [("apt/amd64/pkg_1_amd64.deb", "debs/pkg_1_amd64.deb")]⟩ : FS).files =
        (⟨[], []⟩ : FS).files ++ nf ∧
      (∀ d ∈ nd, d ∉ (⟨[], []⟩ : FS).dirs) ∧
      (∀ e ∈ nf, ¬ pathExists ⟨[], []⟩ e.1) :=
  group_debs_frame [⟨"pkg_1_amd64.deb", "pkg", "1", "amd64"⟩] "debs" "apt" ⟨[], []⟩
    ["apt/amd64"] ⟨["apt/amd64"], [("apt/amd64/pkg_1_amd64.deb", "debs/pkg_1_amd64.deb")]⟩
    (by decide)
